import Mathlib

/-!
# Verification of the Valyxo file-indexer subsystem

A shallow embedding of `Libraries/Native/src/indexer.rs`.  The global
`INDEX` store becomes an explicit `FileIndex` value threaded through the
operations; the filesystem (existence checks, the ignore-aware walker,
metadata reads, file contents, and the clock) is abstracted as an `FS`
record of pure functions.  `f64` relevance scores are modelled as `ℚ`
(the four constants 1.0, 0.9, 0.7, 0.5 are totally ordered the same way
in both types); `u32`/`u64` casts keep their wrap-around via `% 2 ^ w`.
-/

namespace Valyxo

open scoped List

/-- Error type, from `error.rs` (`ValyxoError`); only the variants the
indexer can produce are modelled. -/
inductive ValyxoError where
  | NotFound (msg : String)
  | Config (msg : String)
  | Io (msg : String)
deriving DecidableEq, Repr

/-- `IndexEntry` from `indexer.rs`. -/
structure IndexEntry where
  path : String
  name : String
  extension : Option String
  size : Int
  modified : Int
  symbols : List String
deriving DecidableEq, Repr

/-- `IndexStats` from `indexer.rs`. -/
structure IndexStats where
  total_files : Nat
  total_size : Int
  indexed_at : Int
  root_path : String
  is_indexing : Bool
deriving DecidableEq, Repr

/-- `FileMatch` from `indexer.rs`; the `f64` score is modelled as `ℚ`. -/
structure FileMatch where
  path : String
  name : String
  score : ℚ
  extension : Option String
deriving DecidableEq, Repr

/-- Filesystem metadata for one file: `metadata.len()` and the
already-converted `modified` timestamp (`0` when unavailable, computed
inside `create_index_entry`). -/
structure FileMeta where
  size : Nat
  modified : Int
deriving DecidableEq, Repr

/-- The ambient filesystem and clock, abstracted: `pathExists` models
`Path::exists`, `walk root respect` the `WalkBuilder` enumeration of
regular files under `root` (honouring ignore rules when `respect` is
true), `metadata` models `fs::metadata` (`none` = read failure),
`contents` models `fs::read_to_string` (`none` = unreadable), and `now`
models `chrono::Utc::now().timestamp()`. -/
structure FS where
  pathExists : String → Bool
  walk : String → Bool → List String
  metadata : String → Option FileMeta
  contents : String → Option String
  now : Int

/-- The `FileIndex` store guarded by the global `INDEX` lock.  The
`DashMap` becomes an association list from path to entry; the
`AtomicU64` byte counter becomes a `Nat` kept below `2 ^ 64`. -/
structure FileIndex where
  root : Option String
  entries : List (String × IndexEntry)
  is_indexing : Bool
  total_size : Nat
  indexed_at : Int
deriving DecidableEq, Repr

/-- `FileIndex::default()`: empty store at process start. -/
def FileIndex.init : FileIndex :=
  { root := none, entries := [], is_indexing := false, total_size := 0, indexed_at := 0 }

/-- `DashMap::insert`: replace the value under an existing key,
otherwise add a new binding. -/
def mapInsert (m : List (String × IndexEntry)) (k : String) (v : IndexEntry) :
    List (String × IndexEntry) :=
  if m.any (fun pe => pe.1 == k) then
    m.map (fun pe => if pe.1 = k then (k, v) else pe)
  else
    m ++ [(k, v)]

/-! ## Path helpers (`std::path::Path` operations used by the indexer)

`rust_file_name` models `Path::file_name` for the normalised paths the
walker produces: the component after the last separator, `none` for the
empty, `.` and `..` components.  `split_file_at_dot` is the standard
library's extension splitter on a file name. -/

/-- `Path::file_name`, on walker-produced paths. -/
def rust_file_name (path : String) : Option String :=
  let comp := (path.toList.reverse.takeWhile (fun c => ¬ c = '/')).reverse
  if comp = [] ∨ comp = ['.'] ∨ comp = ['.', '.'] then none else some (String.mk comp)

/-- `split_file_at_dot` from `std::path`: the portion of a file name
after the final `.`, unless the name is `..`, has no `.`, or its only
`.` is the leading character. -/
def split_file_at_dot (name : String) : Option String :=
  if name = ".." then none
  else
    let cs := name.toList
    if '.' ∈ cs then
      let before := ((cs.reverse.dropWhile (fun c => ¬ c = '.')).tail).reverse
      let after := (cs.reverse.takeWhile (fun c => ¬ c = '.')).reverse
      if before = [] then none else some (String.mk after)
    else none

/-- `Path::extension`: `file_name` then `split_file_at_dot`. -/
def rust_extension (path : String) : Option String :=
  (rust_file_name path).bind split_file_at_dot

/-! ## Symbol extraction (`extract_symbols`)

Every regex in the source has the shape
`(?m)^(optional keyword + whitespace)* keyword \s+ (\w+)`, so a match can
start only at a line start and is deterministic (no alternative can
succeed when the greedy parse fails).  `matchKwIdent` performs the
mandatory tail `keyword \s+ (\w+)`, `applyOpt` one optional
`keyword \s+` group, and `scanPat` replays `captures_iter`:
non-overlapping leftmost matches, resuming after each match. -/

/-- `\s` (whitespace character class). -/
def isWs (c : Char) : Bool := c.isWhitespace

/-- `\w` (word character class). -/
def isWordChar (c : Char) : Bool := c.isAlphanum || c == '_'

/-- Match `kw` followed by `\s+` then a captured `\w+`; returns the
capture and the unconsumed remainder. -/
def matchKwIdent (kw : List Char) (cs : List Char) : Option (String × List Char) :=
  if cs.take kw.length = kw then
    let r1 := cs.drop kw.length
    let ws := r1.takeWhile isWs
    let r2 := r1.dropWhile isWs
    let ident := r2.takeWhile isWordChar
    if ws ≠ [] ∧ ident ≠ [] then some (String.mk ident, r2.dropWhile isWordChar)
    else none
  else none

/-- One optional `(?:kw\s+)?` group: consumed only when both the keyword
and at least one whitespace character are present. -/
def applyOpt (kw : List Char) (cs : List Char) : List Char :=
  if cs.take kw.length = kw ∧ (cs.drop kw.length).takeWhile isWs ≠ [] then
    (cs.drop kw.length).dropWhile isWs
  else cs

/-- One declaration pattern: optional keyword groups, then the mandatory
keyword whose following identifier is captured. -/
structure Pat where
  opts : List (List Char)
  kw : List Char
deriving DecidableEq, Repr

/-- Try a pattern at the head of `cs`. -/
def matchPat (p : Pat) (cs : List Char) : Option (String × List Char) :=
  matchKwIdent p.kw (p.opts.foldl (fun acc kw => applyOpt kw acc) cs)

/-- `captures_iter` for one `(?m)^...` pattern: scan the text, trying
the pattern at each line start not already consumed by a previous
match.  Structural recursion on `fuel`; callers pass `cs.length`, which
suffices because every match consumes at least one character. -/
def scanPat (p : Pat) : Nat → Bool → List Char → List String
  | _, _, [] => []
  | 0, _, _ :: _ => []
  | fuel + 1, atStart, c :: cs =>
      if atStart then
        match matchPat p (c :: cs) with
        | some (name, rest) => name :: scanPat p fuel false rest
        | none => scanPat p fuel (c == '\n') cs
      else scanPat p fuel (c == '\n') cs

/-- The seven regex patterns of `extract_symbols`, in source order. -/
def patterns : List Pat :=
  [ ⟨["export".toList, "async".toList], "function".toList⟩,
    ⟨["export".toList], "class".toList⟩,
    ⟨[], "def".toList⟩,
    ⟨[], "class".toList⟩,
    ⟨[], "fn".toList⟩,
    ⟨[], "struct".toList⟩,
    ⟨[], "impl".toList⟩ ]

/-- `code_extensions` from `extract_symbols`. -/
def code_extensions : List String :=
  ["js", "ts", "py", "rs", "go", "java", "c", "cpp", "h", "hpp", "rb", "php"]

/-- `str::to_lowercase`, modelled per character (`String.toLower`
itself is positional and kept out of the embedding so that concrete
instances evaluate by kernel reduction). -/
def lowerStr (s : String) : String := String.mk (s.toList.map Char.toLower)

/-- `extract_symbols`: empty outside the allow-list or when the file is
unreadable; otherwise all captures, in pattern order then position
order. -/
def extract_symbols (fs : FS) (path : String) : List String :=
  let ext := ((rust_extension path).map lowerStr).getD ""
  if code_extensions.contains ext then
    match fs.contents path with
    | some content =>
        patterns.foldr
          (fun p acc => scanPat p content.toList.length true content.toList ++ acc) []
    | none => []
  else []

/-- `create_index_entry`: fails (is skipped) exactly when the metadata
read fails. -/
def create_index_entry (fs : FS) (path : String) : Option IndexEntry :=
  match fs.metadata path with
  | none => none
  | some md =>
      some { path := path,
             name := (rust_file_name path).getD "",
             extension := rust_extension path,
             size := (md.size : Int),
             modified := md.modified,
             symbols := extract_symbols fs path }

/-- One iteration of the parallel indexing loop in `start_indexing`:
on success, add the entry's size to the byte counter (`AtomicU64`
wrap-around) and insert the entry under its path. -/
def indexStep (fs : FS) (st : FileIndex) (p : String) : FileIndex :=
  match create_index_entry fs p with
  | some e =>
      { st with total_size := (st.total_size + e.size.toNat) % 2 ^ 64,
                entries := mapInsert st.entries p e }
  | none => st

/-- `start_indexing`: validate the root, reset the store, walk, build
entries, then clear the in-progress flag and stamp the build time.  The
pair returns the call's result together with the store left behind. -/
def start_indexing (fs : FS) (root_path : String) (respect_gitignore : Bool)
    (st : FileIndex) : Except ValyxoError Unit × FileIndex :=
  if fs.pathExists root_path then
    let st1 : FileIndex :=
      { st with root := some root_path, entries := [], is_indexing := true, total_size := 0 }
    let files := fs.walk root_path respect_gitignore
    let st2 := files.foldl (indexStep fs) st1
    (Except.ok (), { st2 with is_indexing := false, indexed_at := fs.now })
  else
    (Except.error (ValyxoError.NotFound ("Directory not found: " ++ root_path)), st)

/-- `get_index_stats` (note `len() as u32` and the `u64 → i64` cast). -/
def get_index_stats (st : FileIndex) : IndexStats :=
  { total_files := st.entries.length % 2 ^ 32,
    total_size := if st.total_size < 2 ^ 63 then (st.total_size : Int)
                  else (st.total_size : Int) - 2 ^ 64,
    indexed_at := st.indexed_at,
    root_path := (st.root.getD ""),
    is_indexing := st.is_indexing }

/-- `clear_index`: empty the map, unset the root, zero the counter and
timestamp; the in-progress flag is not touched. -/
def clear_index (st : FileIndex) : Except ValyxoError Unit × FileIndex :=
  (Except.ok (),
   { st with entries := [], root := none, total_size := 0, indexed_at := 0 })

/-- `refresh_index`: rebuild from the stored root (always with ignore
rules on), returning the new entry count (`len() as u32`). -/
def refresh_index (fs : FS) (st : FileIndex) : Except ValyxoError Nat × FileIndex :=
  match st.root with
  | none => (Except.error (ValyxoError.Config "No index root set"), st)
  | some root =>
      match start_indexing fs root true st with
      | (Except.ok _, st') => (Except.ok (st'.entries.length % 2 ^ 32), st')
      | (Except.error e, st') => (Except.error e, st')

/-! ## Query engine -/

/-- `str::starts_with` on the character level. -/
def rustStartsWith (s p : String) : Bool := decide (p.toList <+: s.toList)

/-- `str::contains` on the character level (UTF-8 substring matches
always fall on character boundaries). -/
def rustContains (s p : String) : Bool := decide (p.toList <:+: s.toList)

/-- The loop of `fuzzy_match`: walk the text, advancing the pattern on
every equal character, and return the unconsumed pattern suffix. -/
def fuzzyLoop : List Char → List Char → List Char
  | [], ps => ps
  | _ :: _, [] => []
  | t :: ts, pc :: ps => if t = pc then fuzzyLoop ts ps else fuzzyLoop ts (pc :: ps)

/-- `fuzzy_match(text, pattern)`: the pattern is exhausted by a greedy
in-order walk of the text. -/
def fuzzy_match (text pattern : String) : Bool :=
  (fuzzyLoop text.toList pattern.toList).isEmpty

/-- The scoring cascade in `search_files` (the body of its
`filter_map`), on an entry's name versus the lowered query. -/
def matchScore (query_lower : String) (e : IndexEntry) : Option ℚ :=
  let name_lower := lowerStr e.name
  if name_lower = query_lower then some 1
  else if rustStartsWith name_lower query_lower then some (9 / 10)
  else if rustContains name_lower query_lower then some (7 / 10)
  else if fuzzy_match name_lower query_lower then some (1 / 2)
  else none

/-- The comparator `|a, b| b.score.partial_cmp(&a.score)`: descending by
score. -/
def scoreDesc (a b : FileMatch) : Bool := decide (b.score ≤ a.score)

/-- `search_files`: score every entry, drop non-matches, stable-sort
descending by score, truncate to `max_results` (default 50). -/
def search_files (st : FileIndex) (query : String) (max_results : Option Nat) :
    List FileMatch :=
  let max := max_results.getD 50
  let query_lower := lowerStr query
  let scored := st.entries.filterMap fun pe =>
    (matchScore query_lower pe.2).map fun s =>
      { path := pe.2.path, name := pe.2.name, score := s, extension := pe.2.extension }
  (scored.mergeSort scoreDesc).take max

/-- The per-entry step of `search_symbols`: the first symbol whose
lowercase form contains the lowered query, scored 1.0 on exact lowercase
equality and 0.7 otherwise. -/
def symbolMatch (query_lower : String) (e : IndexEntry) : Option FileMatch :=
  match e.symbols.find? (fun s => rustContains (lowerStr s) query_lower) with
  | some symbol =>
      some { path := e.path, name := symbol,
             score := if lowerStr symbol = query_lower then 1 else 7 / 10,
             extension := e.extension }
  | none => none

/-- `search_symbols`: at most one match per entry, then the same
sort/truncate as `search_files`. -/
def search_symbols (st : FileIndex) (query : String) (max_results : Option Nat) :
    List FileMatch :=
  let max := max_results.getD 50
  let query_lower := lowerStr query
  let scored := st.entries.filterMap fun pe => symbolMatch query_lower pe.2
  (scored.mergeSort scoreDesc).take max

/-- `get_all_indexed_files`: every entry value. -/
def get_all_indexed_files (st : FileIndex) : List IndexEntry :=
  st.entries.map (fun pe => pe.2)

/-- `get_files_by_extension`: case-insensitive exact extension filter. -/
def get_files_by_extension (st : FileIndex) (extension : String) : List IndexEntry :=
  let ext_lower := lowerStr extension
  (st.entries.filter fun pe =>
    match pe.2.extension with
    | some e => lowerStr e = ext_lower
    | none => false).map (fun pe => pe.2)

/-! ## Concrete test fixtures -/

/-- A two-file filesystem whose ignore rules exclude `/r/b`. -/
def fsTwo : FS :=
  { pathExists := fun p => p == "/r",
    walk := fun _ respect => if respect then ["/r/a"] else ["/r/a", "/r/b"],
    metadata := fun _ => some ⟨1, 0⟩,
    contents := fun _ => none,
    now := 5 }

/-- An entry with the given name, for query-engine fixtures. -/
def entA (n : String) : IndexEntry :=
  { path := "/r/" ++ n, name := n, extension := none, size := 1, modified := 0, symbols := [] }

/-- The spec's ranking fixture: exact, prefixed, substring, fuzzy and
excluded names for the query `main`. -/
def stEx : FileIndex :=
  { root := some "/r",
    entries := [("/r/xyz", entA "xyz"), ("/r/m_a_i_n.txt", entA "m_a_i_n.txt"),
                ("/r/domain.py", entA "domain.py"), ("/r/main.rs", entA "main.rs"),
                ("/r/main", entA "main")],
    is_indexing := false, total_size := 5, indexed_at := 0 }

/-- An entry with symbols, for `search_symbols` fixtures. -/
def entSym : IndexEntry :=
  { path := "/r/a.rs", name := "a.rs", extension := some "rs", size := 1, modified := 0,
    symbols := ["alpha", "Foo", "foobar"] }

/-- A one-entry store with symbols. -/
def stSym : FileIndex :=
  { root := some "/r", entries := [("/r/a.rs", entSym)],
    is_indexing := false, total_size := 1, indexed_at := 0 }

/-- A filesystem containing a single hidden file. -/
def fsDot : FS :=
  { pathExists := fun p => p == "/r",
    walk := fun _ _ => ["/r/.gitignore"],
    metadata := fun _ => some ⟨2, 3⟩,
    contents := fun _ => none,
    now := 7 }

/-- The entry `start_indexing` builds for `/r/.gitignore`. -/
def entDot : IndexEntry :=
  { path := "/r/.gitignore", name := ".gitignore", extension := none,
    size := 2, modified := 3, symbols := [] }

/-- The entries a rebuild creates from a path list: one entry per path
whose metadata read succeeds, keyed by the path. -/
def builtEntries (fs : FS) (paths : List String) : List (String × IndexEntry) :=
  paths.filterMap (fun p => (create_index_entry fs p).map (fun e => (p, e)))

/-- Total bytes of an entry map. -/
def entriesBytes (m : List (String × IndexEntry)) : Nat :=
  (m.map (fun pe => pe.2.size.toNat)).sum

/-! ## Line-local reading of the patterns

For C8: a pattern match can only cross a line boundary through a
whitespace run that reaches the end of the line (keywords and the
captured `\w+` never contain or cross `'\n'`).  `lineParse` runs the
pattern on a single line and reports `hungry` exactly when such a run
reaches the end, `found`/`fail` otherwise; on non-hungry lines the scan
of the whole text decomposes line by line. -/

/-- Result of parsing one pattern against one line. -/
inductive LRes where
  | hungry
  | fail
  | found (nm : String) (tl : List Char)
deriving DecidableEq, Repr

/-- One optional group on a single line: `none` when a whitespace run
reaches the end of the line (the in-context behaviour would depend on
the following lines). -/
def optParse (kw : List Char) (cs : List Char) : Option (List Char) :=
  if cs.take kw.length = kw then
    if (cs.drop kw.length).dropWhile isWs = [] then none
    else if (cs.drop kw.length).takeWhile isWs = [] then some cs
    else some ((cs.drop kw.length).dropWhile isWs)
  else some cs

/-- All optional groups in sequence. -/
def optsRun : List (List Char) → List Char → Option (List Char)
  | [], cs => some cs
  | kw :: kws, cs =>
      match optParse kw cs with
      | none => none
      | some cs' => optsRun kws cs'

/-- The mandatory `kw \s+ (\w+)` tail on a single line. -/
def kwIdentParse (kw : List Char) (cs : List Char) : LRes :=
  if cs.take kw.length = kw then
    if (cs.drop kw.length).dropWhile isWs = [] then .hungry
    else if (cs.drop kw.length).takeWhile isWs = [] then .fail
    else
      let r2 := (cs.drop kw.length).dropWhile isWs
      if r2.takeWhile isWordChar = [] then .fail
      else .found (String.mk (r2.takeWhile isWordChar)) (r2.dropWhile isWordChar)
  else .fail

/-- A whole pattern on a single line. -/
def lineParse (p : Pat) (l : List Char) : LRes :=
  match optsRun p.opts l with
  | none => .hungry
  | some cs => kwIdentParse p.kw cs

/-- The capture a pattern takes from a single line, if any. -/
def lineCap (p : Pat) (l : List Char) : Option String :=
  match lineParse p l with
  | .found nm _ => some nm
  | _ => none

/-- The text whose lines are `ls`, separated by `'\n'`. -/
def joinLines : List (List Char) → List Char
  | [] => []
  | [l] => l
  | l :: ls => l ++ '\n' :: joinLines ls

/-- A source file whose first line ends in `fn` plus trailing space: the
`\s+` of the `fn` pattern swallows the newline and captures the `fn` of
the next line. -/
def fsRs : FS :=
  { pathExists := fun p => p == "/r",
    walk := fun _ _ => ["/r/a.rs"],
    metadata := fun _ => some ⟨1, 0⟩,
    contents := fun _ => some "fn \nfn foo() {}",
    now := 0 }

/-- A well-behaved source file with two declarations. -/
def fsOk : FS :=
  { pathExists := fun p => p == "/r",
    walk := fun _ _ => ["/r/a.rs"],
    metadata := fun _ => some ⟨1, 0⟩,
    contents := fun _ => some "fn foo() {}\nstruct Bar {}",
    now := 0 }

/-! ## Helper lemmas -/

/-- The greedy walk of `fuzzy_match` exhausts the pattern exactly when
the pattern is an in-order subsequence of the text. -/
theorem fuzzyLoop_eq_nil_iff : ∀ (ts ps : List Char), fuzzyLoop ts ps = [] ↔ ps <+ ts := by
  intro ts
  induction ts with
  | nil =>
      intro ps
      simp only [fuzzyLoop]
      exact (List.sublist_nil).symm
  | cons t ts ih =>
      intro ps
      cases ps with
      | nil => simp [fuzzyLoop]
      | cons pc ps =>
          by_cases h : t = pc
          · subst h
            rw [show fuzzyLoop (t :: ts) (t :: ps) = fuzzyLoop ts ps from by
                  simp [fuzzyLoop]]
            rw [ih ps]
            exact (List.cons_sublist_cons).symm
          · simp only [fuzzyLoop, if_neg h]
            rw [ih (pc :: ps)]
            constructor
            · intro hsub; exact hsub.cons t
            · intro hsub
              cases hsub with
              | cons _ hs => exact hs
              | cons₂ _ _ => exact absurd rfl h

/-- `fuzzy_match` decides the in-order subsequence relation. -/
theorem fuzzy_match_iff (t p : String) :
    fuzzy_match t p = true ↔ p.toList <+ t.toList := by
  rw [fuzzy_match, List.isEmpty_iff]
  exact fuzzyLoop_eq_nil_iff t.toList p.toList

/-- `rustStartsWith` decides the character-level prefix relation. -/
theorem rustStartsWith_iff (s p : String) :
    rustStartsWith s p = true ↔ p.toList <+: s.toList := by
  simp [rustStartsWith]

/-- `rustContains` decides the character-level infix relation. -/
theorem rustContains_iff (s p : String) :
    rustContains s p = true ↔ p.toList <:+: s.toList := by
  simp [rustContains]

/-- The score comparator is transitive. -/
theorem scoreDesc_trans (a b c : FileMatch) :
    scoreDesc a b → scoreDesc b c → scoreDesc a c := by
  simp only [scoreDesc, decide_eq_true_eq]
  exact fun h1 h2 => le_trans h2 h1

/-- The score comparator is total. -/
theorem scoreDesc_total (a b : FileMatch) : scoreDesc a b || scoreDesc b a := by
  simp only [scoreDesc, Bool.or_eq_true, decide_eq_true_eq]
  exact le_total b.score a.score

/-- A truncated descending merge sort is sorted descending by score. -/
theorem sorted_take_scoreDesc (l : List FileMatch) (n : Nat) :
    ((l.mergeSort scoreDesc).take n).Pairwise (fun a b => b.score ≤ a.score) := by
  have hs := List.sorted_mergeSort
    (fun a b c => scoreDesc_trans a b c) (fun a b => scoreDesc_total a b) l
  have hs' : (l.mergeSort scoreDesc).Pairwise (fun a b => b.score ≤ a.score) :=
    hs.imp (fun h => by simpa [scoreDesc] using h)
  exact hs'.sublist (List.take_sublist n _)

/-- Unfolding equation for `search_files`. -/
theorem search_files_eq (st : FileIndex) (q : String) (mr : Option Nat) :
    search_files st q mr
      = ((st.entries.filterMap fun pe =>
            (matchScore (lowerStr q) pe.2).map fun s =>
              { path := pe.2.path, name := pe.2.name, score := s,
                extension := pe.2.extension }).mergeSort scoreDesc).take (mr.getD 50) := rfl

/-- Unfolding equation for `search_symbols`. -/
theorem search_symbols_eq (st : FileIndex) (q : String) (mr : Option Nat) :
    search_symbols st q mr
      = ((st.entries.filterMap fun pe =>
            symbolMatch (lowerStr q) pe.2).mergeSort scoreDesc).take (mr.getD 50) := rfl

/-- The scoring cascade of `search_files`, characterised against the
case-insensitive equality, prefix, infix and subsequence relations. -/
theorem matchScore_spec (ql : String) (e : IndexEntry) :
    (matchScore ql e = some 1 ↔ lowerStr e.name = ql)
    ∧ (matchScore ql e = some (9 / 10)
        ↔ ¬ lowerStr e.name = ql ∧ ql.toList <+: (lowerStr e.name).toList)
    ∧ (matchScore ql e = some (7 / 10)
        ↔ ¬ lowerStr e.name = ql ∧ ¬ ql.toList <+: (lowerStr e.name).toList
          ∧ ql.toList <:+: (lowerStr e.name).toList)
    ∧ (matchScore ql e = some (1 / 2)
        ↔ ¬ lowerStr e.name = ql ∧ ¬ ql.toList <+: (lowerStr e.name).toList
          ∧ ¬ ql.toList <:+: (lowerStr e.name).toList ∧ ql.toList <+ (lowerStr e.name).toList)
    ∧ (matchScore ql e = none
        ↔ ¬ lowerStr e.name = ql ∧ ¬ ql.toList <+: (lowerStr e.name).toList
          ∧ ¬ ql.toList <:+: (lowerStr e.name).toList ∧ ¬ ql.toList <+ (lowerStr e.name).toList) := by
  have hsw := rustStartsWith_iff (lowerStr e.name) ql
  have hct := rustContains_iff (lowerStr e.name) ql
  have hfz := fuzzy_match_iff (lowerStr e.name) ql
  unfold matchScore
  dsimp only
  split_ifs with h1 h2 h3 h4 <;>
    refine ⟨?_, ?_, ?_, ?_, ?_⟩ <;>
      simp_all <;> norm_num

/-- `symbolMatch` produces exactly the first symbol (in extraction
order) whose lowercase form contains the lowered query, with score 1.0
on exact lowercase equality and 0.7 otherwise. -/
theorem symbolMatch_spec (ql : String) (e : IndexEntry) (m : FileMatch) :
    symbolMatch ql e = some m
      ↔ ∃ pre post, e.symbols = pre ++ m.name :: post
          ∧ rustContains (lowerStr m.name) ql = true
          ∧ (∀ s ∈ pre, rustContains (lowerStr s) ql = false)
          ∧ m.path = e.path ∧ m.extension = e.extension
          ∧ m.score = (if lowerStr m.name = ql then (1 : ℚ) else 7 / 10) := by
  unfold symbolMatch
  cases hf : e.symbols.find? (fun s => rustContains (lowerStr s) ql) with
  | none =>
      rw [List.find?_eq_none] at hf
      simp only []
      constructor
      · intro h
        exact absurd h (by simp)
      · rintro ⟨pre, post, hsym, hcon, -, -, -, -⟩
        have hmem : m.name ∈ e.symbols := by
          rw [hsym]
          exact List.mem_append_right _ (List.mem_cons_self _ _)
        exact absurd hcon (by simpa using hf m.name hmem)
  | some sym =>
      simp only []
      constructor
      · intro h
        have hm : m = FileMatch.mk e.path sym
            (if lowerStr sym = ql then (1 : ℚ) else 7 / 10) e.extension := by
          have := Option.some.inj h
          exact this.symm
        rcases List.find?_eq_some.mp hf with ⟨psym, as, bs, hxs, hall⟩
        subst hm
        refine ⟨as, bs, hxs, by simpa using psym, ?_, rfl, rfl, rfl⟩
        intro s hsmem
        simpa using hall s hsmem
      · rintro ⟨pre, post, hsym, hcon, hall, hpath, hext, hscore⟩
        have hfind : e.symbols.find? (fun s => rustContains (lowerStr s) ql) = some m.name :=
          List.find?_eq_some.mpr ⟨by simpa using hcon, pre, post, hsym, by
            intro a ha
            simpa using hall a ha⟩
        have hsm : sym = m.name := Option.some.inj (hf ▸ hfind)
        subst hsm
        obtain ⟨mp, mn, ms, mext⟩ := m
        dsimp only at hpath hext hscore ⊢
        rw [hpath, hext, hscore]

theorem lastDotSplit (cs : List Char) (h : '.' ∈ cs) :
    ∃ pre suf, cs = pre ++ '.' :: suf ∧ '.' ∉ suf
      ∧ cs.reverse.takeWhile (fun c => ¬ c = '.') = suf.reverse
      ∧ cs.reverse.dropWhile (fun c => ¬ c = '.') = '.' :: pre.reverse := by
  set tw := cs.reverse.takeWhile (fun c => ¬ c = '.') with htw
  set dw := cs.reverse.dropWhile (fun c => ¬ c = '.') with hdw
  have hsum : tw ++ dw = cs.reverse := List.takeWhile_append_dropWhile _ _
  have hdne : dw ≠ [] := by
    intro hnil
    have hall : ∀ x ∈ cs.reverse, x ∈ tw := by
      intro x hx
      have : x ∈ tw ++ dw := hsum ▸ hx
      simpa [hnil] using this
    have : ('.' : Char) ∈ tw := hall '.' (List.mem_reverse.mpr h)
    have := List.mem_takeWhile_imp this
    simp at this
  obtain ⟨d0, dt, hd⟩ := List.exists_cons_of_ne_nil hdne
  have hW : cs.reverse.dropWhile (fun c => ¬ c = '.') ≠ [] := hdw ▸ hdne
  have hhead := List.head_dropWhile_not (fun c => decide (¬ c = '.')) cs.reverse hW
  have hdd : cs.reverse.dropWhile (fun c => ¬ c = '.') = d0 :: dt := by
    rw [← hdw]
    exact hd
  have hq : (cs.reverse.dropWhile (fun c => ¬ c = '.')).head? = some d0 := by
    rw [hdd]
    rfl
  have hh : (cs.reverse.dropWhile (fun c => ¬ c = '.')).head hW = d0 := by
    have := (List.head?_eq_head hW).symm.trans hq
    exact Option.some.inj this
  rw [hh] at hhead
  have hd0 : d0 = '.' := by simpa using hhead
  refine ⟨dt.reverse, tw.reverse, ?_, ?_, by simp, ?_⟩
  · have hcs : cs = (tw ++ dw).reverse := by rw [hsum]; simp
    rw [hcs, hd, hd0]
    simp
  · intro hmem
    have h1 : ('.' : Char) ∈ tw := by simpa using hmem
    have := List.mem_takeWhile_imp h1
    simp at this
  · rw [hd, hd0]
    simp

theorem pre_nil_iff (cs pre suf : List Char) (hcs : cs = pre ++ '.' :: suf)
    (hsuf : '.' ∉ suf) :
    pre = [] ↔ (cs.head? = some '.' ∧ '.' ∉ cs.tail) := by
  constructor
  · intro h
    subst h
    simp [hcs, hsuf]
  · intro hh
    cases pre with
    | nil => rfl
    | cons a pre' =>
        exfalso
        rw [hcs] at hh
        have htail : ('.' : Char) ∉ pre' ++ '.' :: suf := by
          simpa using hh.2
        exact htail (List.mem_append_right pre' (List.mem_cons_self _ _))

theorem split_file_at_dot_spec (n : String) (hne : ¬ n = "..") :
    (('.' ∉ n.toList) → split_file_at_dot n = none)
    ∧ ((n.toList.head? = some '.' ∧ '.' ∉ n.toList.tail) → split_file_at_dot n = none)
    ∧ (('.' ∈ n.toList ∧ ¬(n.toList.head? = some '.' ∧ '.' ∉ n.toList.tail)) →
        split_file_at_dot n
          = some (String.mk ((n.toList.reverse.takeWhile (fun c => ¬ c = '.')).reverse))) := by
  refine ⟨?_, ?_, ?_⟩
  · intro h
    simp [split_file_at_dot, hne]
    intro hc
    exact absurd hc h
  · intro hh
    have hdot : '.' ∈ n.toList := by
      cases hcs : n.toList with
      | nil =>
          rw [hcs] at hh
          simp at hh
      | cons a t =>
          have := hh.1
          rw [hcs] at this
          simp at this
          simp [hcs, this]
    obtain ⟨pre, suf, hcs, hsuf, htw, hdw⟩ := lastDotSplit n.toList hdot
    have hpre : pre = [] := (pre_nil_iff n.toList pre suf hcs hsuf).mpr hh
    simp only [split_file_at_dot, if_neg hne, if_pos hdot, hdw, hpre]
    simp
  · intro hh
    obtain ⟨pre, suf, hcs, hsuf, htw, hdw⟩ := lastDotSplit n.toList hh.1
    have hpre : ¬ pre = [] := fun h =>
      hh.2 ((pre_nil_iff n.toList pre suf hcs hsuf).mp h)
    simp only [split_file_at_dot, if_neg hne, if_pos hh.1, hdw]
    simp [hpre]

theorem mem_mapInsert {m : List (String × IndexEntry)} {k : String} {v : IndexEntry}
    {pe : String × IndexEntry} (h : pe ∈ mapInsert m k v) : pe ∈ m ∨ pe = (k, v) := by
  unfold mapInsert at h
  split at h
  · rcases List.mem_map.mp h with ⟨pe', hpe', heq⟩
    by_cases hk : pe'.1 = k
    · right
      rw [if_pos hk] at heq
      exact heq.symm
    · left
      rw [if_neg hk] at heq
      exact heq ▸ hpe'
  · rcases List.mem_append.mp h with h1 | h1
    · exact Or.inl h1
    · right
      simpa using h1

theorem mem_indexStep {fs : FS} {st : FileIndex} {p : String} {pe : String × IndexEntry}
    (h : pe ∈ (indexStep fs st p).entries) :
    pe ∈ st.entries ∨ ∃ e, create_index_entry fs p = some e ∧ pe = (p, e) := by
  unfold indexStep at h
  cases hc : create_index_entry fs p with
  | none =>
      rw [hc] at h
      exact Or.inl h
  | some e =>
      rw [hc] at h
      rcases mem_mapInsert h with h1 | h1
      · exact Or.inl h1
      · exact Or.inr ⟨e, rfl, h1⟩

theorem mem_foldl_indexStep {fs : FS} {pe : String × IndexEntry} :
    ∀ (paths : List String) (st : FileIndex),
      pe ∈ (paths.foldl (indexStep fs) st).entries →
      pe ∈ st.entries ∨ ∃ p e, create_index_entry fs p = some e ∧ pe = (p, e) := by
  intro paths
  induction paths with
  | nil => exact fun st h => Or.inl h
  | cons p ps ih =>
      intro st h
      rcases ih (indexStep fs st p) h with h1 | h1
      · rcases mem_indexStep h1 with h2 | h2
        · exact Or.inl h2
        · exact Or.inr ⟨p, h2⟩
      · exact Or.inr h1

theorem mem_start_indexing_entries {fs : FS} {root : String} {respect : Bool}
    {st : FileIndex} {pe : String × IndexEntry} (hex : fs.pathExists root = true)
    (h : pe ∈ (start_indexing fs root respect st).2.entries) :
    ∃ p e, create_index_entry fs p = some e ∧ pe = (p, e) := by
  have h' : pe ∈ ((fs.walk root respect).foldl (indexStep fs)
      { st with root := some root, entries := [], is_indexing := true,
                total_size := 0 }).entries := by
    have hs : (start_indexing fs root respect st).2.entries
        = ((fs.walk root respect).foldl (indexStep fs)
            { st with root := some root, entries := [], is_indexing := true,
                      total_size := 0 }).entries := by
      simp [start_indexing, hex]
    exact hs ▸ h
  rcases mem_foldl_indexStep (fs.walk root respect) _ h' with h1 | h1
  · simp at h1
  · exact h1

theorem create_index_entry_fields {fs : FS} {p : String} {e : IndexEntry}
    (h : create_index_entry fs p = some e) :
    e.name = (rust_file_name p).getD "" ∧ e.extension = rust_extension p := by
  unfold create_index_entry at h
  cases hm : fs.metadata p with
  | none =>
      rw [hm] at h
      simp at h
  | some md =>
      rw [hm] at h
      have := Option.some.inj h
      rw [← this]
      exact ⟨rfl, rfl⟩

theorem rust_file_name_ne_dotdot {p : String} {n : String}
    (h : rust_file_name p = some n) : ¬ n = ".." := by
  unfold rust_file_name at h
  dsimp only at h
  split at h
  · simp at h
  · rename_i hcond
    have hn := Option.some.inj h
    intro hdot
    apply hcond
    right; right
    have : n.toList = ['.', '.'] := by rw [hdot]; rfl
    rw [← hn] at this
    simpa using this

/-- Inserting a fresh key appends. -/
theorem mapInsert_fresh (m : List (String × IndexEntry)) (k : String) (v : IndexEntry)
    (h : ∀ pe ∈ m, pe.1 ≠ k) : mapInsert m k v = m ++ [(k, v)] := by
  have hany : m.any (fun pe => pe.1 == k) = false := by
    simp only [List.any_eq_false, beq_iff_eq]
    exact h
  simp [mapInsert, hany]

/-- Characterisation of the indexing fold: starting from fresh keys and
an in-range byte counter, the fold appends exactly the built entries and
adds their sizes to the counter (mod `2 ^ 64`). -/
theorem foldl_indexStep_spec (fs : FS) :
    ∀ (paths : List String) (st : FileIndex),
      paths.Nodup →
      (∀ p ∈ paths, ∀ pe ∈ st.entries, pe.1 ≠ p) →
      st.total_size < 2 ^ 64 →
      (paths.foldl (indexStep fs) st).entries = st.entries ++ builtEntries fs paths
      ∧ (paths.foldl (indexStep fs) st).total_size
          = (st.total_size + entriesBytes (builtEntries fs paths)) % 2 ^ 64 := by
  intro paths
  induction paths with
  | nil =>
      intro st _ _ hlt
      refine ⟨by simp [builtEntries], ?_⟩
      simp only [List.foldl_nil, builtEntries, List.filterMap_nil, entriesBytes, List.map_nil,
        List.sum_nil, Nat.add_zero]
      omega
  | cons p ps ih =>
      intro st hnd hfresh hlt
      have hnd' : ps.Nodup := hnd.of_cons
      have hpnotin : p ∉ ps := by
        have := List.nodup_cons.mp hnd
        exact this.1
      cases hc : create_index_entry fs p with
      | none =>
          have hstep : indexStep fs st p = st := by simp [indexStep, hc]
          have hbe : builtEntries fs (p :: ps) = builtEntries fs ps := by
            simp [builtEntries, hc]
          have := ih st hnd' (fun q hq pe hpe => hfresh q (List.mem_cons_of_mem p hq) pe hpe) hlt
          simpa [hstep, hbe] using this
      | some e =>
          have hstep : indexStep fs st p
              = { st with total_size := (st.total_size + e.size.toNat) % 2 ^ 64,
                          entries := st.entries ++ [(p, e)] } := by
            have hfr : ∀ pe ∈ st.entries, pe.1 ≠ p :=
              fun pe hpe => hfresh p (List.mem_cons_self p ps) pe hpe
            simp [indexStep, hc, mapInsert_fresh st.entries p e hfr]
          have hbe : builtEntries fs (p :: ps) = (p, e) :: builtEntries fs ps := by
            simp [builtEntries, hc]
          have hfresh' : ∀ q ∈ ps, ∀ pe ∈ st.entries ++ [(p, e)], pe.1 ≠ q := by
            intro q hq pe hpe
            rcases List.mem_append.mp hpe with hold | hnew
            · exact hfresh q (List.mem_cons_of_mem p hq) pe hold
            · have : pe = (p, e) := by simpa using hnew
              subst this
              intro hcontra
              have hpq : p = q := hcontra
              exact hpnotin (hpq ▸ hq)
          have hlt' : (st.total_size + e.size.toNat) % 2 ^ 64 < 2 ^ 64 :=
            Nat.mod_lt _ (by positivity)
          have hmain := ih { st with total_size := (st.total_size + e.size.toNat) % 2 ^ 64,
                                     entries := st.entries ++ [(p, e)] } hnd' hfresh' hlt'
          constructor
          · rw [List.foldl_cons, hstep, hmain.1, hbe]
            simp
          · rw [List.foldl_cons, hstep, hmain.2, hbe]
            show ((st.total_size + e.size.toNat) % 2 ^ 64
                    + entriesBytes (builtEntries fs ps)) % 2 ^ 64 = _
            rw [Nat.mod_add_mod]
            have : entriesBytes ((p, e) :: builtEntries fs ps)
                = e.size.toNat + entriesBytes (builtEntries fs ps) := by
              simp [entriesBytes]
            rw [this, Nat.add_assoc]

/-- After a successful rebuild over duplicate-free walker output, the
entry map is exactly the built entries and the byte counter their total
size mod `2 ^ 64`. -/
theorem start_indexing_spec (fs : FS) (root : String) (respect : Bool) (st : FileIndex)
    (hex : fs.pathExists root = true) (hnd : (fs.walk root respect).Nodup) :
    (start_indexing fs root respect st).2.entries = builtEntries fs (fs.walk root respect)
    ∧ (start_indexing fs root respect st).2.total_size
        = entriesBytes (builtEntries fs (fs.walk root respect)) % 2 ^ 64 := by
  have hfold := foldl_indexStep_spec fs (fs.walk root respect)
    { st with root := some root, entries := [], is_indexing := true, total_size := 0 }
    hnd (by intro p _ pe hpe; simp at hpe) (by positivity)
  constructor
  · show (start_indexing fs root respect st).2.entries = _
    simp only [start_indexing, hex, if_true]
    simpa using hfold.1
  · show (start_indexing fs root respect st).2.total_size = _
    simp only [start_indexing, hex, if_true]
    simpa using hfold.2

/-- One built entry per walked path with readable metadata. -/
theorem builtEntries_length (fs : FS) :
    ∀ paths : List String,
      (builtEntries fs paths).length
        = (paths.filter (fun p => (fs.metadata p).isSome)).length := by
  intro paths
  induction paths with
  | nil => simp [builtEntries]
  | cons p ps ih =>
      cases h : fs.metadata p with
      | none =>
          have hc : create_index_entry fs p = none := by simp [create_index_entry, h]
          simpa [builtEntries, List.filterMap_cons, hc, h] using ih
      | some md =>
          have hc : (create_index_entry fs p).isSome = true := by
            simp [create_index_entry, h]
          rcases Option.isSome_iff_exists.mp hc with ⟨e, he⟩
          simpa [builtEntries, List.filterMap_cons, he, h] using ih

/-- No built entry carries a key outside the walked paths. -/
theorem countKey_built_zero (fs : FS) (q : String) :
    ∀ paths : List String, q ∉ paths →
      (builtEntries fs paths).countP (fun pe => pe.1 == q) = 0 := by
  intro paths
  induction paths with
  | nil => intro _; simp [builtEntries]
  | cons p ps ih =>
      intro hq
      have hp : ¬ p = q := fun h => hq (h ▸ List.mem_cons_self p ps)
      have hq' : q ∉ ps := fun h => hq (List.mem_cons_of_mem p h)
      cases hc : create_index_entry fs p with
      | none => simpa [builtEntries, List.filterMap_cons, hc] using ih hq'
      | some e =>
          have := ih hq'
          simp [builtEntries, List.filterMap_cons, hc, List.countP_cons, hp] at this ⊢
          exact this

/-- A walked path with readable metadata keys exactly one built entry. -/
theorem countKey_built_one (fs : FS) (q : String) :
    ∀ paths : List String, paths.Nodup → q ∈ paths → (fs.metadata q).isSome →
      (builtEntries fs paths).countP (fun pe => pe.1 == q) = 1 := by
  intro paths
  induction paths with
  | nil => intro _ h; simp at h
  | cons p ps ih =>
      intro hnd hq hmeta
      have hnd' : ps.Nodup := hnd.of_cons
      by_cases hpq : p = q
      · subst hpq
        have hpnotin : p ∉ ps := (List.nodup_cons.mp hnd).1
        have hzero := countKey_built_zero fs p ps hpnotin
        have hc : (create_index_entry fs p).isSome = true := by
          cases h : fs.metadata p with
          | none => rw [h] at hmeta; simp at hmeta
          | some md => simp [create_index_entry, h]
        rcases Option.isSome_iff_exists.mp hc with ⟨e, he⟩
        simp [builtEntries, List.filterMap_cons, he, List.countP_cons]
        simpa [builtEntries] using hzero
      · have hq' : q ∈ ps := by
          rcases List.mem_cons.mp hq with h | h
          · exact absurd h.symm hpq
          · exact h
        cases hc : create_index_entry fs p with
        | none => simpa [builtEntries, List.filterMap_cons, hc] using ih hnd' hq' hmeta
        | some e =>
            have := ih hnd' hq' hmeta
            simp [builtEntries, List.filterMap_cons, hc, List.countP_cons, hpq] at this ⊢
            exact this

/-- When the root exists, `start_indexing` succeeds. -/
theorem start_indexing_ok (fs : FS) (p : String) (r : Bool) (st : FileIndex)
    (h : fs.pathExists p = true) :
    start_indexing fs p r st = (Except.ok (), (start_indexing fs p r st).2) := by
  have h1 : (start_indexing fs p r st).1 = Except.ok () := by simp [start_indexing, h]
  calc start_indexing fs p r st
      = ((start_indexing fs p r st).1, (start_indexing fs p r st).2) := rfl
    _ = (Except.ok (), (start_indexing fs p r st).2) := by rw [h1]

/-! ## Claim theorems -/

/-- C1: `search_files` compares case-insensitively and scores entries
by the cascade — exact name 1.0, prefixed 0.9, substring 0.7, in-order
subsequence 0.5, otherwise excluded — then sorts descending by score
and truncates to `max_results` (default 50); `max_results = 0` yields
the empty list. -/
theorem c1_search_files (st : FileIndex) (q : String) (mr : Option Nat) :
    search_files st q (some 0) = []
    ∧ (search_files st q mr).length ≤ mr.getD 50
    ∧ (search_files st q mr).Pairwise (fun a b => b.score ≤ a.score)
    ∧ (∀ m ∈ search_files st q mr, ∃ pe ∈ st.entries,
        matchScore (lowerStr q) pe.2 = some m.score ∧ m.path = pe.2.path
          ∧ m.name = pe.2.name ∧ m.extension = pe.2.extension)
    ∧ (∀ e : IndexEntry,
        (matchScore (lowerStr q) e = some 1 ↔ lowerStr e.name = lowerStr q)
        ∧ (matchScore (lowerStr q) e = some (9 / 10)
            ↔ ¬ lowerStr e.name = lowerStr q
              ∧ (lowerStr q).toList <+: (lowerStr e.name).toList)
        ∧ (matchScore (lowerStr q) e = some (7 / 10)
            ↔ ¬ lowerStr e.name = lowerStr q
              ∧ ¬ (lowerStr q).toList <+: (lowerStr e.name).toList
              ∧ (lowerStr q).toList <:+: (lowerStr e.name).toList)
        ∧ (matchScore (lowerStr q) e = some (1 / 2)
            ↔ ¬ lowerStr e.name = lowerStr q
              ∧ ¬ (lowerStr q).toList <+: (lowerStr e.name).toList
              ∧ ¬ (lowerStr q).toList <:+: (lowerStr e.name).toList
              ∧ (lowerStr q).toList <+ (lowerStr e.name).toList)
        ∧ (matchScore (lowerStr q) e = none
            ↔ ¬ lowerStr e.name = lowerStr q
              ∧ ¬ (lowerStr q).toList <+: (lowerStr e.name).toList
              ∧ ¬ (lowerStr q).toList <:+: (lowerStr e.name).toList
              ∧ ¬ (lowerStr q).toList <+ (lowerStr e.name).toList))
    ∧ (st.entries.length ≤ mr.getD 50 →
        ∀ pe ∈ st.entries, ∀ s, matchScore (lowerStr q) pe.2 = some s →
          ∃ m ∈ search_files st q mr,
            m.path = pe.2.path ∧ m.name = pe.2.name ∧ m.score = s) := by
  refine ⟨?_, ?_, ?_, ?_, fun e => matchScore_spec (lowerStr q) e, ?_⟩
  · rw [search_files_eq]
    simp
  · rw [search_files_eq]
    exact List.length_take_le _ _
  · rw [search_files_eq]
    exact sorted_take_scoreDesc _ _
  · intro m hm
    rw [search_files_eq] at hm
    have hm2 : m ∈ (st.entries.filterMap fun pe =>
        (matchScore (lowerStr q) pe.2).map fun s =>
          { path := pe.2.path, name := pe.2.name, score := s,
            extension := pe.2.extension }) :=
      List.mem_mergeSort.mp ((List.take_sublist _ _).subset hm)
    rcases List.mem_filterMap.mp hm2 with ⟨pe, hpe, heq⟩
    rcases Option.map_eq_some'.mp heq with ⟨s, hs, hms⟩
    refine ⟨pe, hpe, ?_, ?_, ?_, ?_⟩
    · rw [← hms]
      simpa using hs
    · rw [← hms]
    · rw [← hms]
    · rw [← hms]
  · intro hlen pe hpe s hs
    have hmem : FileMatch.mk pe.2.path pe.2.name s pe.2.extension
        ∈ (st.entries.filterMap fun pe =>
            (matchScore (lowerStr q) pe.2).map fun s =>
              { path := pe.2.path, name := pe.2.name, score := s,
                extension := pe.2.extension }) := by
      exact List.mem_filterMap.mpr ⟨pe, hpe, by rw [hs]; rfl⟩
    have hlen2 : ((st.entries.filterMap fun pe =>
        (matchScore (lowerStr q) pe.2).map fun s =>
          { path := pe.2.path, name := pe.2.name, score := s,
            extension := pe.2.extension }).mergeSort scoreDesc).length ≤ mr.getD 50 := by
      rw [List.length_mergeSort]
      exact le_trans (List.length_filterMap_le _ _) hlen
    refine ⟨FileMatch.mk pe.2.path pe.2.name s pe.2.extension, ?_, rfl, rfl, rfl⟩
    rw [search_files_eq, List.take_of_length_le hlen2]
    exact List.mem_mergeSort.mpr hmem

/-- Witness for C1 on the spec's ranking fixture: the exactly-named
entry is returned with score 1.0. -/
theorem c1_search_files_witness :
    ∃ m ∈ search_files stEx "main" none,
      m.path = (entA "main").path ∧ m.name = (entA "main").name ∧ m.score = 1 :=
  (c1_search_files stEx "main" none).2.2.2.2.2 (by decide)
    ("/r/main", entA "main") (by decide) 1 (by decide)

/-- C6: `search_symbols` yields at most one match per entry — the first
symbol in extraction order whose lowercase form contains the lowered
query — scored 1.0 on exact case-insensitive equality and 0.7
otherwise, sorted descending by score and truncated to `max_results`
(default 50). -/
theorem c6_search_symbols (st : FileIndex) (q : String) (mr : Option Nat) :
    search_symbols st q (some 0) = []
    ∧ (search_symbols st q mr).length ≤ mr.getD 50
    ∧ (search_symbols st q mr).Pairwise (fun a b => b.score ≤ a.score)
    ∧ ((st.entries.filterMap fun pe => symbolMatch (lowerStr q) pe.2).length
        ≤ st.entries.length)
    ∧ (∀ m ∈ search_symbols st q mr, ∃ pe ∈ st.entries,
        symbolMatch (lowerStr q) pe.2 = some m)
    ∧ (∀ (e : IndexEntry) (m : FileMatch),
        symbolMatch (lowerStr q) e = some m
          ↔ ∃ pre post, e.symbols = pre ++ m.name :: post
              ∧ rustContains (lowerStr m.name) (lowerStr q) = true
              ∧ (∀ s ∈ pre, rustContains (lowerStr s) (lowerStr q) = false)
              ∧ m.path = e.path ∧ m.extension = e.extension
              ∧ m.score = (if lowerStr m.name = lowerStr q then (1 : ℚ) else 7 / 10))
    ∧ (st.entries.length ≤ mr.getD 50 →
        ∀ pe ∈ st.entries, ∀ m, symbolMatch (lowerStr q) pe.2 = some m →
          m ∈ search_symbols st q mr) := by
  refine ⟨?_, ?_, ?_, ?_, ?_, fun e m => symbolMatch_spec (lowerStr q) e m, ?_⟩
  · rw [search_symbols_eq]
    simp
  · rw [search_symbols_eq]
    exact List.length_take_le _ _
  · rw [search_symbols_eq]
    exact sorted_take_scoreDesc _ _
  · exact List.length_filterMap_le _ _
  · intro m hm
    rw [search_symbols_eq] at hm
    have hm2 : m ∈ (st.entries.filterMap fun pe => symbolMatch (lowerStr q) pe.2) :=
      List.mem_mergeSort.mp ((List.take_sublist _ _).subset hm)
    rcases List.mem_filterMap.mp hm2 with ⟨pe, hpe, heq⟩
    exact ⟨pe, hpe, heq⟩
  · intro hlen pe hpe m hm
    have hmem : m ∈ (st.entries.filterMap fun pe => symbolMatch (lowerStr q) pe.2) :=
      List.mem_filterMap.mpr ⟨pe, hpe, hm⟩
    have hlen2 : ((st.entries.filterMap fun pe =>
        symbolMatch (lowerStr q) pe.2).mergeSort scoreDesc).length ≤ mr.getD 50 := by
      rw [List.length_mergeSort]
      exact le_trans (List.length_filterMap_le _ _) hlen
    rw [search_symbols_eq, List.take_of_length_le hlen2]
    exact List.mem_mergeSort.mpr hmem

/-- Witness for C6: the symbol `Foo` matches the query `foo` exactly
and is returned with score 1.0. -/
theorem c6_search_symbols_witness :
    FileMatch.mk "/r/a.rs" "Foo" 1 (some "rs") ∈ search_symbols stSym "foo" none :=
  (c6_search_symbols stSym "foo" none).2.2.2.2.2.2 (by decide)
    ("/r/a.rs", entSym) (by decide) (FileMatch.mk "/r/a.rs" "Foo" 1 (some "rs")) (by decide)

/-- C2: after a successful `start_indexing`, `get_index_stats` reports
one file per walked path whose metadata read succeeded (the walker
emits the regular files under the root that pass the ignore filter),
and each such path keys exactly one entry. -/
theorem c2_total_files (fs : FS) (root : String) (respect : Bool) (st : FileIndex)
    (hex : fs.pathExists root = true) (hnd : (fs.walk root respect).Nodup)
    (hlt : (fs.walk root respect).length < 2 ^ 32) :
    (get_index_stats (start_indexing fs root respect st).2).total_files
      = ((fs.walk root respect).filter (fun p => (fs.metadata p).isSome)).length
    ∧ ∀ p ∈ fs.walk root respect, (fs.metadata p).isSome →
        ((start_indexing fs root respect st).2).entries.countP (fun pe => pe.1 == p) = 1 := by
  have hspec := start_indexing_spec fs root respect st hex hnd
  constructor
  · show (start_indexing fs root respect st).2.entries.length % 2 ^ 32 = _
    rw [hspec.1, builtEntries_length fs]
    exact Nat.mod_eq_of_lt
      (Nat.lt_of_le_of_lt (List.length_filter_le _ _) hlt)
  · intro p hp hmeta
    rw [hspec.1]
    exact countKey_built_one fs p (fs.walk root respect) hnd hp hmeta

/-- Witness for C2 on the concrete two-file filesystem. -/
theorem c2_total_files_witness :
    (get_index_stats (start_indexing fsTwo "/r" true FileIndex.init).2).total_files
      = ((fsTwo.walk "/r" true).filter (fun p => (fsTwo.metadata p).isSome)).length :=
  (c2_total_files fsTwo "/r" true FileIndex.init (by decide) (by decide) (by decide)).1

/-- C3: whenever a build is not in progress — at the initial empty
state, after `clear_index`, and after a rebuild completes — the byte
counter equals the total size of the entries in the mapping. -/
theorem c3_byte_counter_invariant :
    FileIndex.init.total_size = entriesBytes FileIndex.init.entries
    ∧ (∀ st : FileIndex,
        ((clear_index st).2).total_size = entriesBytes ((clear_index st).2).entries)
    ∧ (∀ (fs : FS) (root : String) (respect : Bool) (st : FileIndex),
        fs.pathExists root = true → (fs.walk root respect).Nodup →
        entriesBytes (builtEntries fs (fs.walk root respect)) < 2 ^ 64 →
        ((start_indexing fs root respect st).2).total_size
          = entriesBytes ((start_indexing fs root respect st).2).entries) := by
  refine ⟨rfl, fun st => rfl, ?_⟩
  intro fs root respect st hex hnd hlt
  have hspec := start_indexing_spec fs root respect st hex hnd
  rw [hspec.1, hspec.2]
  exact Nat.mod_eq_of_lt hlt

/-- Witness for C3 after a concrete rebuild. -/
theorem c3_byte_counter_invariant_witness :
    (start_indexing fsTwo "/r" true FileIndex.init).2.total_size
      = entriesBytes (start_indexing fsTwo "/r" true FileIndex.init).2.entries :=
  c3_byte_counter_invariant.2.2 fsTwo "/r" true FileIndex.init
    (by decide) (by decide) (by decide)

/-- C5: `fuzzy_match` accepts `(name, query)` exactly when the query's
characters appear in the name in order, not necessarily contiguously;
in particular the query `br` matches the name `buffer.rs`. -/
theorem c5_fuzzy_is_subsequence :
    (∀ (name query : String),
        fuzzy_match name query = true ↔ query.toList <+ name.toList) ∧
    fuzzy_match "buffer.rs" "br" = true := by
  constructor
  · intro name query
    exact fuzzy_match_iff name query
  · decide

/-- C9: `get_all_indexed_files` is a pure function of the entry map:
two calls against the same entries (in particular, two calls with no
intervening mutation of the store) return identical lists, in the same
order. -/
theorem c9_get_all_deterministic (st₁ st₂ : FileIndex)
    (h : st₁.entries = st₂.entries) :
    get_all_indexed_files st₁ = get_all_indexed_files st₂ := by
  simp [get_all_indexed_files, h]

/-- Witness for C9 at a concrete store. -/
theorem c9_get_all_deterministic_witness :
    get_all_indexed_files stEx = get_all_indexed_files stEx :=
  c9_get_all_deterministic stEx stEx rfl

/-- C10: `refresh_index` always rebuilds with ignore rules enabled,
whatever flag the original `start_indexing` call used; concretely, on a
filesystem where the ignore filter drops `/r/b`, an ignore-disabled
build holds two entries and the subsequent refresh only one. -/
theorem c10_refresh_forces_ignore :
    (∀ (fs : FS) (st : FileIndex) (r : String), st.root = some r →
        refresh_index fs st
          = (match start_indexing fs r true st with
             | (Except.ok _, st') => (Except.ok (st'.entries.length % 2 ^ 32), st')
             | (Except.error e, st') => (Except.error e, st'))) ∧
    ((start_indexing fsTwo "/r" false FileIndex.init).2.entries.length = 2 ∧
     (refresh_index fsTwo (start_indexing fsTwo "/r" false FileIndex.init).2).2.entries.length
       = 1) := by
  refine ⟨?_, by decide, by decide⟩
  intro fs st r h
  simp only [refresh_index, h]

/-- Witness for C10 at a concrete store with a root set. -/
theorem c10_refresh_forces_ignore_witness :
    refresh_index fsTwo stEx
      = (match start_indexing fsTwo "/r" true stEx with
         | (Except.ok _, st') => (Except.ok (st'.entries.length % 2 ^ 32), st')
         | (Except.error e, st') => (Except.error e, st')) :=
  c10_refresh_forces_ignore.1 fsTwo stEx "/r" rfl

/-- C4 counterexample: after a successful `start_indexing` (which sets
the root) followed by `clear_index`, `refresh_index` still fails with
`Config`, so "fails with Config exactly when no root was ever set" is
false: here a root *was* set earlier in the trace. -/
theorem c4_counterexample :
    (start_indexing fsTwo "/r" true FileIndex.init).2.root = some "/r" ∧
    (refresh_index fsTwo
        (clear_index (start_indexing fsTwo "/r" true FileIndex.init).2).2).1
      = Except.error (ValyxoError.Config "No index root set") := by
  exact ⟨rfl, rfl⟩

/-- C4 (amended): `start_indexing` fails, with `NotFound`, exactly when
the given root does not exist; `refresh_index` fails with `Config`
exactly when the store's root is currently unset (never set, or unset
again by `clear_index`), and fails with `NotFound` when the stored root
no longer exists; in every failing case the store is returned completely
unchanged. -/
theorem c4_failure_conditions :
    (∀ (fs : FS) (p : String) (r : Bool) (st : FileIndex),
        (fs.pathExists p = false →
          start_indexing fs p r st
            = (Except.error (ValyxoError.NotFound ("Directory not found: " ++ p)), st)) ∧
        (fs.pathExists p = true →
          ∃ st', start_indexing fs p r st = (Except.ok (), st'))) ∧
    (∀ (fs : FS) (st : FileIndex),
        (st.root = none →
          refresh_index fs st
            = (Except.error (ValyxoError.Config "No index root set"), st)) ∧
        (∀ r, st.root = some r → fs.pathExists r = false →
          refresh_index fs st
            = (Except.error (ValyxoError.NotFound ("Directory not found: " ++ r)), st)) ∧
        (∀ r, st.root = some r → fs.pathExists r = true →
          ∃ n st', refresh_index fs st = (Except.ok n, st'))) := by
  constructor
  · intro fs p r st
    constructor
    · intro h
      simp [start_indexing, h]
    · intro h
      exact ⟨(start_indexing fs p r st).2, start_indexing_ok fs p r st h⟩
  · intro fs st
    refine ⟨?_, ?_, ?_⟩
    · intro h
      simp [refresh_index, h]
    · intro r hroot hex
      have he : start_indexing fs r true st
          = (Except.error (ValyxoError.NotFound ("Directory not found: " ++ r)), st) := by
        simp [start_indexing, hex]
      simp [refresh_index, hroot, he]
    · intro r hroot hex
      refine ⟨(start_indexing fs r true st).2.entries.length % 2 ^ 32,
              (start_indexing fs r true st).2, ?_⟩
      simp only [refresh_index, hroot]
      rw [start_indexing_ok fs r true st hex]

/-- Witness for C4 at concrete inputs: a missing root fails with
`NotFound` and leaves the store unchanged, and a cleared store refreshes
to `Config`. -/
theorem c4_failure_conditions_witness :
    start_indexing fsTwo "/nope" true stEx
      = (Except.error (ValyxoError.NotFound "Directory not found: /nope"), stEx) ∧
    refresh_index fsTwo FileIndex.init
      = (Except.error (ValyxoError.Config "No index root set"), FileIndex.init) :=
  ⟨(c4_failure_conditions.1 fsTwo "/nope" true stEx).1 (by decide),
   (c4_failure_conditions.2 fsTwo FileIndex.init).1 rfl⟩

/-- C7 counterexample: indexing a root containing `.gitignore` produces
an entry whose name contains a `.` yet whose extension is absent, so
"absent exactly when the name contains no `.`" fails: hidden files with
a single leading dot have no extension. -/
theorem c7_counterexample :
    ∃ pe ∈ (start_indexing fsDot "/r" true FileIndex.init).2.entries,
      pe.2.name = ".gitignore" ∧ '.' ∈ pe.2.name.toList ∧ pe.2.extension = none := by
  decide

/-- C7 (amended): for every entry present after a successful rebuild,
the extension is absent when the name contains no `.` or when its only
`.` is the leading character (and hidden-file names like `.gitignore`
fall in the latter case); otherwise it equals the suffix of the name
after the last `.`. -/
theorem c7_extension_field (fs : FS) (root : String) (respect : Bool) (st : FileIndex)
    (hex : fs.pathExists root = true) :
    ∀ pe ∈ (start_indexing fs root respect st).2.entries,
      (('.' ∉ pe.2.name.toList) → pe.2.extension = none)
      ∧ ((pe.2.name.toList.head? = some '.' ∧ '.' ∉ pe.2.name.toList.tail) →
          pe.2.extension = none)
      ∧ (('.' ∈ pe.2.name.toList
            ∧ ¬(pe.2.name.toList.head? = some '.' ∧ '.' ∉ pe.2.name.toList.tail)) →
          pe.2.extension
            = some (String.mk ((pe.2.name.toList.reverse.takeWhile
                (fun c => ¬ c = '.')).reverse))) := by
  intro pe hpe
  obtain ⟨p, e, hc, hpe2⟩ := mem_start_indexing_entries hex hpe
  subst hpe2
  obtain ⟨hname, hext⟩ := create_index_entry_fields hc
  show (('.' ∉ e.name.toList) → e.extension = none) ∧ _
  cases hf : rust_file_name p with
  | none =>
      have hn : e.name = "" := by rw [hname, hf]; rfl
      have he : e.extension = none := by
        rw [hext]
        unfold rust_extension
        rw [hf]
        rfl
      refine ⟨fun _ => he, fun _ => he, fun hh => ?_⟩
      rw [hn] at hh
      simp at hh
  | some n =>
      have hn : e.name = n := by rw [hname, hf]; rfl
      have he : e.extension = split_file_at_dot n := by
        rw [hext]
        unfold rust_extension
        rw [hf]
        rfl
      have hne := rust_file_name_ne_dotdot hf
      have hspec := split_file_at_dot_spec n hne
      rw [hn, he]
      exact hspec

/-- Witness for C7 at the `.gitignore` fixture: the leading-dot case
yields no extension. -/
theorem c7_extension_field_witness : entDot.extension = none :=
  (c7_extension_field fsDot "/r" true FileIndex.init (by decide)
    ("/r/.gitignore", entDot) (by decide)).2.1 (by decide)

theorem takeWhile_append_not {p : Char → Bool} {c : Char} (hc : ¬ p c = true) :
    ∀ (a b : List Char), (a ++ c :: b).takeWhile p = a.takeWhile p := by
  intro a b
  induction a with
  | nil => simp [List.takeWhile_cons, hc]
  | cons x a ih =>
      by_cases hx : p x = true
      · simp [List.takeWhile_cons, hx, ih]
      · simp [List.takeWhile_cons, hx]

theorem dropWhile_append_not {p : Char → Bool} {c : Char} (hc : ¬ p c = true) :
    ∀ (a b : List Char), (a ++ c :: b).dropWhile p = a.dropWhile p ++ c :: b := by
  intro a b
  induction a with
  | nil => simp [List.dropWhile_cons, hc]
  | cons x a ih =>
      by_cases hx : p x = true
      · simp [List.dropWhile_cons, hx, ih]
      · simp [List.dropWhile_cons, hx]

theorem takeWhile_append_pos {p : Char → Bool} {a : List Char}
    (ha : a.dropWhile p ≠ []) (b : List Char) :
    (a ++ b).takeWhile p = a.takeWhile p := by
  induction a with
  | nil => simp at ha
  | cons x a ih =>
      by_cases hx : p x = true
      · have ha' : a.dropWhile p ≠ [] := by
          simpa [List.dropWhile_cons, hx] using ha
        simp [List.takeWhile_cons, hx, ih ha']
      · simp [List.takeWhile_cons, hx]

theorem dropWhile_append_pos {p : Char → Bool} {a : List Char}
    (ha : a.dropWhile p ≠ []) (b : List Char) :
    (a ++ b).dropWhile p = a.dropWhile p ++ b := by
  induction a with
  | nil => simp at ha
  | cons x a ih =>
      by_cases hx : p x = true
      · have ha' : a.dropWhile p ≠ [] := by
          simpa [List.dropWhile_cons, hx] using ha
        simp [List.dropWhile_cons, hx, ih ha']
      · simp [List.dropWhile_cons, hx]

/-- Matching a newline-free keyword prefix is insensitive to material
beyond the line's newline. -/
theorem take_kw_iff {kw l : List Char} (hkw : '\n' ∉ kw)
    (s : List Char) :
    (l ++ '\n' :: s).take kw.length = kw ↔ l.take kw.length = kw := by
  by_cases hlen : kw.length ≤ l.length
  · rw [List.take_append_of_le_length hlen]
  · constructor
    · intro h
      exfalso
      apply hkw
      rw [← h]
      rw [List.take_append_eq_append_take]
      refine List.mem_append_right _ ?_
      have : 0 < kw.length - l.length := by omega
      cases hk : kw.length - l.length with
      | zero => omega
      | succ n => simp [List.take_cons]
    · intro h
      exfalso
      have : l.take kw.length = l := List.take_of_length_le (by omega)
      rw [this] at h
      subst h
      omega

theorem optParse_spec {kw l : List Char} (hkw : '\n' ∉ kw) :
    ∀ cs', optParse kw l = some cs' →
      cs' <:+ l ∧ applyOpt kw l = cs'
        ∧ ∀ rest, applyOpt kw (l ++ '\n' :: rest) = cs' ++ '\n' :: rest := by
  intro cs' h
  unfold optParse at h
  by_cases ht : l.take kw.length = kw
  · rw [if_pos ht] at h
    by_cases hdw : (l.drop kw.length).dropWhile isWs = []
    · rw [if_pos hdw] at h
      simp at h
    · rw [if_neg hdw] at h
      by_cases htw : (l.drop kw.length).takeWhile isWs = []
      · rw [if_pos htw] at h
        have hcs := Option.some.inj h
        subst hcs
        have hlen : kw.length ≤ l.length := by
          have := congrArg List.length ht
          simp at this
          omega
        refine ⟨List.suffix_refl l, ?_, ?_⟩
        · unfold applyOpt
          rw [if_neg]
          intro hcon
          exact hcon.2 htw
        · intro rest
          unfold applyOpt
          rw [if_neg]
          intro hcon
          rw [List.drop_append_of_le_length hlen] at hcon
          have := hcon.2
          rw [takeWhile_append_pos hdw] at this
          exact this htw
      · rw [if_neg htw] at h
        have hcs := Option.some.inj h
        subst hcs
        have hlen : kw.length ≤ l.length := by
          have := congrArg List.length ht
          simp at this
          omega
        refine ⟨(List.dropWhile_suffix isWs).trans (List.drop_suffix _ l), ?_, ?_⟩
        · unfold applyOpt
          rw [if_pos ⟨ht, htw⟩]
        · intro rest
          have hcond : (l ++ '\n' :: rest).take kw.length = kw
              ∧ ((l ++ '\n' :: rest).drop kw.length).takeWhile isWs ≠ [] := by
            refine ⟨(take_kw_iff hkw rest).mpr ht, ?_⟩
            rw [List.drop_append_of_le_length hlen, takeWhile_append_pos hdw]
            exact htw
          unfold applyOpt
          rw [if_pos hcond, List.drop_append_of_le_length hlen]
          exact dropWhile_append_pos hdw ('\n' :: rest)
  · rw [if_neg ht] at h
    have hcs := Option.some.inj h
    subst hcs
    refine ⟨List.suffix_refl l, ?_, ?_⟩
    · unfold applyOpt
      rw [if_neg]
      intro hcon
      exact ht hcon.1
    · intro rest
      unfold applyOpt
      rw [if_neg]
      intro hcon
      exact ht ((take_kw_iff hkw rest).mp hcon.1)

theorem optsRun_spec :
    ∀ (opts : List (List Char)) (l : List Char), (∀ kw ∈ opts, '\n' ∉ kw) →
      ∀ cs', optsRun opts l = some cs' →
        cs' <:+ l
          ∧ opts.foldl (fun acc kw => applyOpt kw acc) l = cs'
          ∧ ∀ rest, opts.foldl (fun acc kw => applyOpt kw acc) (l ++ '\n' :: rest)
              = cs' ++ '\n' :: rest := by
  intro opts
  induction opts with
  | nil =>
      intro l _ cs' h
      have hcs := Option.some.inj h
      subst hcs
      exact ⟨List.suffix_refl l, rfl, fun rest => rfl⟩
  | cons kw kws ih =>
      intro l hkws cs' h
      unfold optsRun at h
      cases h1 : optParse kw l with
      | none => rw [h1] at h; simp at h
      | some c1 =>
          rw [h1] at h
          obtain ⟨hsuf1, hiso1, hctx1⟩ :=
            optParse_spec (hkws kw (List.mem_cons_self _ _)) c1 h1
          obtain ⟨hsuf2, hiso2, hctx2⟩ :=
            ih c1 (fun k hk => hkws k (List.mem_cons_of_mem _ hk)) cs' h
          refine ⟨hsuf2.trans hsuf1, ?_, ?_⟩
          · rw [List.foldl_cons, hiso1]
            exact hiso2
          · intro rest
            rw [List.foldl_cons, hctx1 rest]
            exact hctx2 rest

theorem kwIdentParse_spec {kw l : List Char} (hkw : '\n' ∉ kw) :
    (kwIdentParse kw l = .fail →
      matchKwIdent kw l = none ∧ ∀ rest, matchKwIdent kw (l ++ '\n' :: rest) = none)
    ∧ (∀ nm tl, kwIdentParse kw l = .found nm tl →
      tl <:+ l ∧ matchKwIdent kw l = some (nm, tl)
        ∧ ∀ rest, matchKwIdent kw (l ++ '\n' :: rest) = some (nm, tl ++ '\n' :: rest)) := by
  have hnw : ¬ isWordChar '\n' = true := by decide
  by_cases ht : l.take kw.length = kw
  · have hlen : kw.length ≤ l.length := by
      have := congrArg List.length ht
      simp at this
      omega
    have htc : ∀ rest : List Char, (l ++ '\n' :: rest).take kw.length = kw :=
      fun rest => (take_kw_iff hkw rest).mpr ht
    have hdc : ∀ rest : List Char, (l ++ '\n' :: rest).drop kw.length
        = l.drop kw.length ++ '\n' :: rest :=
      fun rest => List.drop_append_of_le_length hlen
    by_cases hdw : (l.drop kw.length).dropWhile isWs = []
    · constructor
      · intro h
        unfold kwIdentParse at h
        rw [if_pos ht, if_pos hdw] at h
        simp at h
      · intro nm tl h
        unfold kwIdentParse at h
        rw [if_pos ht, if_pos hdw] at h
        simp at h
    · by_cases htw : (l.drop kw.length).takeWhile isWs = []
      · constructor
        · intro _
          constructor
          · unfold matchKwIdent
            rw [if_pos ht, if_neg]
            intro hcon
            exact hcon.1 htw
          · intro rest
            unfold matchKwIdent
            rw [if_pos (htc rest), if_neg]
            intro hcon
            rw [hdc rest, takeWhile_append_pos hdw] at hcon
            exact hcon.1 htw
        · intro nm tl h
          unfold kwIdentParse at h
          rw [if_pos ht, if_neg hdw, if_pos htw] at h
          simp at h
      · by_cases hid : ((l.drop kw.length).dropWhile isWs).takeWhile isWordChar = []
        · constructor
          · intro _
            constructor
            · unfold matchKwIdent
              rw [if_pos ht, if_neg]
              intro hcon
              exact hcon.2 hid
            · intro rest
              unfold matchKwIdent
              rw [if_pos (htc rest), if_neg]
              intro hcon
              rw [hdc rest, dropWhile_append_pos hdw,
                  takeWhile_append_not hnw] at hcon
              exact hcon.2 hid
          · intro nm tl h
            unfold kwIdentParse at h
            rw [if_pos ht, if_neg hdw, if_neg htw] at h
            dsimp only at h
            rw [if_pos hid] at h
            simp at h
        · constructor
          · intro h
            unfold kwIdentParse at h
            rw [if_pos ht, if_neg hdw, if_neg htw] at h
            dsimp only at h
            rw [if_neg hid] at h
            simp at h
          · intro nm tl h
            unfold kwIdentParse at h
            rw [if_pos ht, if_neg hdw, if_neg htw] at h
            dsimp only at h
            rw [if_neg hid] at h
            have hinj := LRes.found.inj h
            obtain ⟨hnm, htl⟩ := hinj
            refine ⟨?_, ?_, ?_⟩
            · rw [← htl]
              exact ((List.dropWhile_suffix _).trans
                ((List.dropWhile_suffix _).trans (List.drop_suffix _ l)))
            · unfold matchKwIdent
              rw [if_pos ht, if_pos ⟨htw, hid⟩]
              rw [← hnm, ← htl]
            · intro rest
              unfold matchKwIdent
              rw [if_pos (htc rest)]
              rw [hdc rest]
              rw [if_pos ?hc]
              case hc =>
                constructor
                · rw [takeWhile_append_pos hdw]
                  exact htw
                · rw [dropWhile_append_pos hdw, takeWhile_append_not hnw]
                  exact hid
              rw [dropWhile_append_pos hdw, takeWhile_append_not hnw,
                  dropWhile_append_not hnw]
              rw [← hnm, ← htl]
  · have htc : ∀ rest : List Char, ¬ (l ++ '\n' :: rest).take kw.length = kw :=
      fun rest hcon => ht ((take_kw_iff hkw rest).mp hcon)
    constructor
    · intro _
      constructor
      · unfold matchKwIdent
        rw [if_neg ht]
      · intro rest
        unfold matchKwIdent
        rw [if_neg (htc rest)]
    · intro nm tl h
      unfold kwIdentParse at h
      rw [if_neg ht] at h
      simp at h

theorem lineParse_spec {p : Pat} {l : List Char}
    (hkw : '\n' ∉ p.kw) (hopts : ∀ kw ∈ p.opts, '\n' ∉ kw) :
    (lineParse p l = .fail →
      matchPat p l = none ∧ ∀ rest, matchPat p (l ++ '\n' :: rest) = none)
    ∧ (∀ nm tl, lineParse p l = .found nm tl →
      tl <:+ l ∧ matchPat p l = some (nm, tl)
        ∧ ∀ rest, matchPat p (l ++ '\n' :: rest) = some (nm, tl ++ '\n' :: rest)) := by
  cases ho : optsRun p.opts l with
  | none =>
      constructor
      · intro h
        unfold lineParse at h
        rw [ho] at h
        simp at h
      · intro nm tl h
        unfold lineParse at h
        rw [ho] at h
        simp at h
  | some cs' =>
      obtain ⟨hsuf, hiso, hctx⟩ := optsRun_spec p.opts l hopts cs' ho
      obtain ⟨hfail, hfound⟩ := @kwIdentParse_spec p.kw cs' hkw
      constructor
      · intro h
        unfold lineParse at h
        rw [ho] at h
        obtain ⟨h1, h2⟩ := hfail h
        constructor
        · unfold matchPat
          rw [hiso]
          exact h1
        · intro rest
          unfold matchPat
          rw [hctx rest]
          exact h2 rest
      · intro nm tl h
        unfold lineParse at h
        rw [ho] at h
        obtain ⟨hs, hi, hc⟩ := hfound nm tl h
        refine ⟨hs.trans hsuf, ?_, ?_⟩
        · unfold matchPat
          rw [hiso]
          exact hi
        · intro rest
          unfold matchPat
          rw [hctx rest]
          exact hc rest

theorem applyOpt_length_le (kw cs : List Char) : (applyOpt kw cs).length ≤ cs.length := by
  unfold applyOpt
  split
  · calc ((cs.drop kw.length).dropWhile isWs).length
        ≤ (cs.drop kw.length).length :=
          (List.dropWhile_suffix isWs).sublist.length_le
      _ ≤ cs.length := by
          rw [List.length_drop]
          omega
  · exact Nat.le_refl _

theorem optsFold_length_le (opts : List (List Char)) :
    ∀ cs : List Char,
      (opts.foldl (fun acc kw => applyOpt kw acc) cs).length ≤ cs.length := by
  induction opts with
  | nil => exact fun cs => Nat.le_refl _
  | cons kw kws ih =>
      intro cs
      calc (kws.foldl (fun acc kw => applyOpt kw acc) (applyOpt kw cs)).length
          ≤ (applyOpt kw cs).length := ih _
        _ ≤ cs.length := applyOpt_length_le kw cs

theorem dropWhile_length_lt {p : Char → Bool} {l : List Char}
    (h : l.takeWhile p ≠ []) : (l.dropWhile p).length < l.length := by
  cases l with
  | nil => simp at h
  | cons x xs =>
      by_cases hx : p x = true
      · rw [List.dropWhile_cons, if_pos hx]
        have hle : (xs.dropWhile p).length ≤ xs.length :=
          (List.dropWhile_suffix p).sublist.length_le
        simp
        omega
      · rw [List.takeWhile_cons, if_neg hx] at h
        simp at h

theorem matchKwIdent_rest_lt {kw cs : List Char} {nm : String} {rest : List Char}
    (h : matchKwIdent kw cs = some (nm, rest)) : rest.length < cs.length := by
  unfold matchKwIdent at h
  split at h
  · dsimp only at h
    split at h
    · rename_i hcond
      have hinj := Prod.mk.injEq .. ▸ Option.some.inj h
      have hrest : rest = ((cs.drop kw.length).dropWhile isWs).dropWhile isWordChar :=
        hinj.2.symm
      subst hrest
      calc (((cs.drop kw.length).dropWhile isWs).dropWhile isWordChar).length
          < ((cs.drop kw.length).dropWhile isWs).length :=
            dropWhile_length_lt hcond.2
        _ < (cs.drop kw.length).length := dropWhile_length_lt hcond.1
        _ ≤ cs.length := by
            rw [List.length_drop]
            omega
    · simp at h
  · simp at h

theorem matchPat_rest_lt {p : Pat} {cs : List Char} {nm : String} {rest : List Char}
    (h : matchPat p cs = some (nm, rest)) : rest.length < cs.length := by
  unfold matchPat at h
  calc rest.length < (p.opts.foldl (fun acc kw => applyOpt kw acc) cs).length :=
        matchKwIdent_rest_lt h
    _ ≤ cs.length := optsFold_length_le p.opts cs

theorem scanPat_nil {p : Pat} {f : Nat} {b : Bool} : scanPat p f b [] = [] := by
  cases f <;> rfl

theorem scanPat_cons_false {p : Pat} {f : Nat} {c : Char} {cs : List Char} :
    scanPat p (f + 1) false (c :: cs) = scanPat p f (c == '\n') cs := rfl

theorem scanPat_cons_start_some {p : Pat} {f : Nat} {c : Char} {cs : List Char}
    {nm : String} {rest : List Char} (h : matchPat p (c :: cs) = some (nm, rest)) :
    scanPat p (f + 1) true (c :: cs) = nm :: scanPat p f false rest := by
  show (match matchPat p (c :: cs) with
        | some (nm, rest) => nm :: scanPat p f false rest
        | none => scanPat p f (c == '\n') cs) = _
  rw [h]

theorem scanPat_cons_start_none {p : Pat} {f : Nat} {c : Char} {cs : List Char}
    (h : matchPat p (c :: cs) = none) :
    scanPat p (f + 1) true (c :: cs) = scanPat p f (c == '\n') cs := by
  show (match matchPat p (c :: cs) with
        | some (nm, rest) => nm :: scanPat p f false rest
        | none => scanPat p f (c == '\n') cs) = _
  rw [h]

theorem scanPat_fuel {p : Pat} :
    ∀ (f g : Nat) (b : Bool) (cs : List Char), cs.length ≤ f → cs.length ≤ g →
      scanPat p f b cs = scanPat p g b cs := by
  intro f
  induction f with
  | zero =>
      intro g b cs hf _
      have : cs = [] := List.length_eq_zero.mp (Nat.le_zero.mp hf)
      subst this
      rw [scanPat_nil, scanPat_nil]
  | succ f ih =>
      intro g b cs hf hg
      cases cs with
      | nil => rw [scanPat_nil, scanPat_nil]
      | cons c cs' =>
          cases g with
          | zero => simp at hg
          | succ g =>
              simp only [List.length_cons] at hf hg
              cases b with
              | false =>
                  rw [scanPat_cons_false, scanPat_cons_false]
                  exact ih g (c == '\n') cs' (by omega) (by omega)
              | true =>
                  cases hmp : matchPat p (c :: cs') with
                  | none =>
                      rw [scanPat_cons_start_none hmp, scanPat_cons_start_none hmp]
                      exact ih g (c == '\n') cs' (by omega) (by omega)
                  | some pr =>
                      obtain ⟨nm, rest⟩ := pr
                      have hlt := matchPat_rest_lt hmp
                      simp only [List.length_cons] at hlt
                      rw [scanPat_cons_start_some hmp, scanPat_cons_start_some hmp]
                      rw [ih g false rest (by omega) (by omega)]

theorem scanPat_false_no_nl {p : Pat} :
    ∀ (l : List Char) (f : Nat), '\n' ∉ l → scanPat p f false l = [] := by
  intro l
  induction l with
  | nil => intro f _; rw [scanPat_nil]
  | cons c l' ih =>
      intro f hnl
      cases f with
      | zero => rfl
      | succ f =>
          have hc : ¬ c = '\n' := fun h => hnl (h ▸ List.mem_cons_self _ _)
          have hb : (c == '\n') = false := by simpa using hc
          rw [scanPat_cons_false, hb]
          exact ih f (fun h => hnl (List.mem_cons_of_mem _ h))

theorem scanPat_false_walk {p : Pat} :
    ∀ (l rest : List Char) (f : Nat), '\n' ∉ l →
      l.length + 1 + rest.length ≤ f →
      scanPat p f false (l ++ '\n' :: rest) = scanPat p rest.length true rest := by
  intro l
  induction l with
  | nil =>
      intro rest f _ hf
      simp only [List.length_nil] at hf
      cases f with
      | zero => omega
      | succ f =>
          rw [List.nil_append, scanPat_cons_false]
          have hb : ('\n' == '\n') = true := by decide
          rw [hb]
          exact scanPat_fuel f rest.length true rest (by omega) (Nat.le_refl _)
  | cons c l' ih =>
      intro rest f hnl hf
      simp only [List.length_cons] at hf
      cases f with
      | zero => omega
      | succ f =>
          have hc : ¬ c = '\n' := fun h => hnl (h ▸ List.mem_cons_self _ _)
          have hb : (c == '\n') = false := by simpa using hc
          rw [List.cons_append, scanPat_cons_false, hb]
          exact ih rest f (fun h => hnl (List.mem_cons_of_mem _ h)) (by omega)

theorem scanPat_single {p : Pat} {l : List Char}
    (hkw : '\n' ∉ p.kw) (hopts : ∀ kw ∈ p.opts, '\n' ∉ kw)
    (hnl : '\n' ∉ l) (hnh : lineParse p l ≠ .hungry) :
    ∀ f, l.length ≤ f → scanPat p f true l = (lineCap p l).toList := by
  intro f hf
  cases hlp : lineParse p l with
  | hungry => exact absurd hlp hnh
  | fail =>
      obtain ⟨hiso, -⟩ := (lineParse_spec hkw hopts).1 hlp
      have hcap : lineCap p l = none := by
        unfold lineCap
        rw [hlp]
      rw [hcap]
      cases l with
      | nil => rw [scanPat_nil]; rfl
      | cons c l' =>
          simp only [List.length_cons] at hf
          cases f with
          | zero => omega
          | succ f =>
              have hc : ¬ c = '\n' := fun h => hnl (h ▸ List.mem_cons_self _ _)
              have hb : (c == '\n') = false := by simpa using hc
              rw [scanPat_cons_start_none hiso, hb]
              rw [scanPat_false_no_nl l' f (fun h => hnl (List.mem_cons_of_mem _ h))]
              rfl
  | found nm tl =>
      obtain ⟨hsuf, hiso, -⟩ := (lineParse_spec hkw hopts).2 nm tl hlp
      have hcap : lineCap p l = some nm := by
        unfold lineCap
        rw [hlp]
      rw [hcap]
      cases l with
      | nil =>
          exfalso
          have := matchPat_rest_lt hiso
          simp at this
      | cons c l' =>
          simp only [List.length_cons] at hf
          cases f with
          | zero => omega
          | succ f =>
              have hntl : '\n' ∉ tl := fun h => hnl (hsuf.subset h)
              rw [scanPat_cons_start_some hiso]
              rw [scanPat_false_no_nl tl f hntl]
              rfl

theorem scanPat_line_step {p : Pat} {l rest : List Char}
    (hkw : '\n' ∉ p.kw) (hopts : ∀ kw ∈ p.opts, '\n' ∉ kw)
    (hnl : '\n' ∉ l) (hnh : lineParse p l ≠ .hungry) :
    ∀ f, l.length + 1 + rest.length ≤ f →
      scanPat p f true (l ++ '\n' :: rest)
        = (lineCap p l).toList ++ scanPat p rest.length true rest := by
  intro f hf
  cases hlp : lineParse p l with
  | hungry => exact absurd hlp hnh
  | fail =>
      obtain ⟨-, hctx⟩ := (lineParse_spec hkw hopts).1 hlp
      have hcap : lineCap p l = none := by
        unfold lineCap
        rw [hlp]
      rw [hcap]
      cases l with
      | nil =>
          simp only [List.length_nil] at hf
          cases f with
          | zero => omega
          | succ f =>
              have hmp : matchPat p ('\n' :: rest) = none := by
                have := hctx rest
                rwa [List.nil_append] at this
              rw [List.nil_append, scanPat_cons_start_none hmp]
              have hb : ('\n' == '\n') = true := by decide
              rw [hb, Option.toList_none, List.nil_append]
              exact scanPat_fuel f rest.length true rest (by omega) (Nat.le_refl _)
      | cons c l' =>
          simp only [List.length_cons] at hf
          cases f with
          | zero => omega
          | succ f =>
              have hmp : matchPat p (c :: (l' ++ '\n' :: rest)) = none := by
                have := hctx rest
                rwa [List.cons_append] at this
              have hc : ¬ c = '\n' := fun h => hnl (h ▸ List.mem_cons_self _ _)
              have hb : (c == '\n') = false := by simpa using hc
              rw [List.cons_append, scanPat_cons_start_none hmp, hb,
                  Option.toList_none, List.nil_append]
              exact scanPat_false_walk l' rest f
                (fun h => hnl (List.mem_cons_of_mem _ h)) (by omega)
  | found nm tl =>
      obtain ⟨hsuf, hiso, hctx⟩ := (lineParse_spec hkw hopts).2 nm tl hlp
      have hcap : lineCap p l = some nm := by
        unfold lineCap
        rw [hlp]
      rw [hcap]
      have hntl : '\n' ∉ tl := fun h => hnl (hsuf.subset h)
      have htllt : tl.length < l.length := matchPat_rest_lt hiso
      cases l with
      | nil => simp at htllt
      | cons c l' =>
          simp only [List.length_cons] at hf htllt
          cases f with
          | zero => omega
          | succ f =>
              have hmp : matchPat p (c :: (l' ++ '\n' :: rest))
                  = some (nm, tl ++ '\n' :: rest) := by
                have := hctx rest
                rwa [List.cons_append] at this
              rw [List.cons_append, scanPat_cons_start_some hmp]
              rw [scanPat_false_walk tl rest f hntl (by omega)]
              rfl

theorem scanPat_joinLines {p : Pat} (hkw : '\n' ∉ p.kw)
    (hopts : ∀ kw ∈ p.opts, '\n' ∉ kw) :
    ∀ ls : List (List Char), (∀ l ∈ ls, '\n' ∉ l) →
      (∀ l ∈ ls, lineParse p l ≠ .hungry) →
      scanPat p (joinLines ls).length true (joinLines ls) = ls.filterMap (lineCap p) := by
  intro ls
  induction ls with
  | nil =>
      intro _ _
      rw [show joinLines [] = [] from rfl, scanPat_nil]
      rfl
  | cons l ls ih =>
      intro hnl hnh
      cases ls with
      | nil =>
          rw [show joinLines [l] = l from rfl]
          rw [scanPat_single hkw hopts (hnl l (List.mem_cons_self _ _))
                (hnh l (List.mem_cons_self _ _)) _ (Nat.le_refl _)]
          cases hc : lineCap p l <;> simp [List.filterMap_cons, hc]
      | cons l2 ls2 =>
          rw [show joinLines (l :: l2 :: ls2) = l ++ '\n' :: joinLines (l2 :: ls2)
                from rfl]
          rw [scanPat_line_step hkw hopts (hnl l (List.mem_cons_self _ _))
                (hnh l (List.mem_cons_self _ _)) _
                (by simp [List.length_append]; omega)]
          rw [ih (fun l' hl' => hnl l' (List.mem_cons_of_mem _ hl'))
                (fun l' hl' => hnh l' (List.mem_cons_of_mem _ hl'))]
          cases hc : lineCap p l <;> simp [List.filterMap_cons, hc]

/-- Every pattern keyword of the source is newline-free. -/
theorem patterns_wf : ∀ p ∈ patterns, '\n' ∉ p.kw ∧ ∀ kw ∈ p.opts, '\n' ∉ kw := by
  decide

theorem extract_symbols_eq_scan {fs : FS} {path content : String}
    (hc : fs.contents path = some content)
    (hext : code_extensions.contains (((rust_extension path).map lowerStr).getD "")
      = true) :
    extract_symbols fs path
      = patterns.foldr
          (fun p acc => scanPat p content.toList.length true content.toList ++ acc)
          [] := by
  unfold extract_symbols
  rw [if_pos ?hcond]
  case hcond => exact hext
  rw [hc]

theorem foldr_append_congr {g h : Pat → List String} :
    ∀ ps : List Pat, (∀ p ∈ ps, g p = h p) →
      ps.foldr (fun p acc => g p ++ acc) [] = ps.foldr (fun p acc => h p ++ acc) [] := by
  intro ps
  induction ps with
  | nil => intro _; rfl
  | cons q qs ih =>
      intro hall
      simp only [List.foldr_cons]
      rw [hall q (List.mem_cons_self _ _), ih (fun p hp => hall p (List.mem_cons_of_mem _ hp))]

theorem mem_foldr_append {x : String} {p : Pat} {g : Pat → List String} :
    ∀ ps : List Pat, p ∈ ps → x ∈ g p →
      x ∈ ps.foldr (fun p acc => g p ++ acc) [] := by
  intro ps
  induction ps with
  | nil => intro hp; simp at hp
  | cons q qs ih =>
      intro hp hx
      rcases List.mem_cons.mp hp with h | h
      · subst h
        exact List.mem_append_left _ hx
      · exact List.mem_append_right _ (ih h hx)

/-- C8 counterexample: in an allow-listed `.rs` file whose second line
is the function declaration `fn foo() {}`, the extracted symbols are
`["fn"]` — the first line `fn ` makes the regex's `\s+` span the
newline, so the second line's declaration is consumed and `foo` is not
extracted. -/
theorem c8_counterexample :
    extract_symbols fsRs "/r/a.rs" = ["fn"]
    ∧ "foo" ∉ extract_symbols fsRs "/r/a.rs"
    ∧ fsRs.contents "/r/a.rs" = some ("fn \n" ++ "fn foo() {}")
    ∧ lineParse ⟨[], "fn".toList⟩ "fn foo() {}".toList
        = LRes.found "foo" "() {}".toList
    ∧ (⟨[], "fn".toList⟩ : Pat) ∈ patterns := by
  refine ⟨by decide, by decide, rfl, by decide, by decide⟩

/-- C8 (amended): files with non-allow-listed extensions (or unreadable
contents) yield an empty symbol sequence; for an allow-listed file on
whose lines no pattern is left mid-match at a line end (no line consists
of declaration keywords followed only by whitespace), the extraction is
exactly the per-line captures appended in pattern order then line
order, and in particular a function declaration named `foo` at the
start of a line contributes `"foo"`. -/
theorem c8_symbol_extraction :
    (∀ (fs : FS) (path : String),
        code_extensions.contains (((rust_extension path).map lowerStr).getD "")
          = false →
        extract_symbols fs path = [])
    ∧ (∀ (fs : FS) (path : String), fs.contents path = none →
        extract_symbols fs path = [])
    ∧ (∀ (fs : FS) (path content : String) (ls : List (List Char)),
        fs.contents path = some content →
        code_extensions.contains (((rust_extension path).map lowerStr).getD "")
          = true →
        content.toList = joinLines ls →
        (∀ l ∈ ls, '\n' ∉ l) →
        (∀ p ∈ patterns, ∀ l ∈ ls, lineParse p l ≠ LRes.hungry) →
        extract_symbols fs path
          = patterns.foldr (fun p acc => ls.filterMap (lineCap p) ++ acc) [])
    ∧ (∀ (fs : FS) (path content : String) (ls : List (List Char)) (p : Pat)
          (l : List Char) (nm : String) (tl : List Char),
        fs.contents path = some content →
        code_extensions.contains (((rust_extension path).map lowerStr).getD "")
          = true →
        content.toList = joinLines ls →
        (∀ l ∈ ls, '\n' ∉ l) →
        (∀ p ∈ patterns, ∀ l ∈ ls, lineParse p l ≠ LRes.hungry) →
        p ∈ patterns → l ∈ ls → lineParse p l = LRes.found nm tl →
        nm ∈ extract_symbols fs path) := by
  have hmain : ∀ (fs : FS) (path content : String) (ls : List (List Char)),
      fs.contents path = some content →
      code_extensions.contains (((rust_extension path).map lowerStr).getD "")
        = true →
      content.toList = joinLines ls →
      (∀ l ∈ ls, '\n' ∉ l) →
      (∀ p ∈ patterns, ∀ l ∈ ls, lineParse p l ≠ LRes.hungry) →
      extract_symbols fs path
        = patterns.foldr (fun p acc => ls.filterMap (lineCap p) ++ acc) [] := by
    intro fs path content ls hc hext hjl hnl hnh
    rw [extract_symbols_eq_scan hc hext]
    rw [hjl]
    exact foldr_append_congr patterns (fun p hp =>
      scanPat_joinLines (patterns_wf p hp).1 (patterns_wf p hp).2 ls hnl (hnh p hp))
  refine ⟨?_, ?_, hmain, ?_⟩
  · intro fs path h
    unfold extract_symbols
    rw [if_neg]
    simpa using h
  · intro fs path h
    unfold extract_symbols
    dsimp only
    by_cases hext : code_extensions.contains
        (((rust_extension path).map lowerStr).getD "") = true
    · rw [if_pos hext, h]
    · rw [if_neg hext]
  · intro fs path content ls p l nm tl hc hext hjl hnl hnh hp hl hlp
    rw [hmain fs path content ls hc hext hjl hnl hnh]
    refine mem_foldr_append patterns hp ?_
    refine List.mem_filterMap.mpr ⟨l, hl, ?_⟩
    unfold lineCap
    rw [hlp]

/-- Witness for C8: a two-line Rust file with `fn foo() {}` on its
first line and `struct Bar {}` on its second yields `foo` among the
extracted symbols. -/
theorem c8_symbol_extraction_witness : "foo" ∈ extract_symbols fsOk "/r/a.rs" :=
  c8_symbol_extraction.2.2.2 fsOk "/r/a.rs" "fn foo() {}\nstruct Bar {}"
    ["fn foo() {}".toList, "struct Bar {}".toList]
    ⟨[], "fn".toList⟩ "fn foo() {}".toList "foo" "() {}".toList
    rfl (by decide) (by decide) (by decide) (by decide) (by decide) (by decide)
    (by decide)

end Valyxo
